import Mathlib

/-!
Verification development for the rust-gateway reverse proxy.

Strings from the Rust source are modelled as lists of characters
(`Str := List Char`); machine integers (`u32`, `usize`) are modelled as `Nat`.
Each definition is a shallow embedding of the correspondingly named item of
the source tree (`src/load_balancer/*.rs`, `src/config.rs`, `src/proxy.rs`,
`src/rate_limit.rs`, `src/auth.rs`, `src/path_matcher.rs`).  External crates
(the `rand` draw, the `regex` engine, the `jsonwebtoken` decoder, the
`governor` buckets, the process-wide caches) enter as explicit parameters of
the embedded functions.
-/

abbrev Str := List Char

/-! ## Weighted-random balancer (`src/load_balancer/weighted_random.rs`) -/

/-- One upstream node with its weight (`WeightedUpstream { url, weight }`). -/
structure WeightedUpstream where
  url : Str
  weight : Nat
deriving DecidableEq, Repr

/-- Body of `WeightedRandomBalancerInner::new`: walk the upstream list with a
running total, and for every entry of positive weight push the new running
total onto the prefix-sum array.  Returns `(prefix_sums, total_weight)`;
the loop of the source is rendered as structural recursion carrying the
running total `t`. -/
def wrBuild : List WeightedUpstream → Nat → (List Nat × Nat)
  | [], t => ([], t)
  | u :: rest, t =>
    if u.weight > 0 then
      let r := wrBuild rest (t + u.weight)
      ((t + u.weight) :: r.1, r.2)
    else
      wrBuild rest t

/-- The `prefix_sums` field built by `WeightedRandomBalancerInner::new`. -/
def wrPrefixSums (ups : List WeightedUpstream) : List Nat :=
  (wrBuild ups 0).1

/-- The `total_weight` field built by `WeightedRandomBalancerInner::new`. -/
def wrTotal (ups : List WeightedUpstream) : Nat :=
  (wrBuild ups 0).2

/-- Semantic model of `slice::binary_search` on the (strictly increasing)
prefix-sum array: `Sum.inl i` when the probe value occurs at index `i`,
`Sum.inr i` with `i` the insertion point (the number of elements below the
probe) when it does not. -/
def binSearch (l : List Nat) (v : Nat) : Sum Nat Nat :=
  if v ∈ l then Sum.inl (l.indexOf v) else Sum.inr ((l.filter (fun x => x < v)).length)

/-- The index `WeightedRandomBalancerInner::select` uses on `self.upstreams`:
both the `Ok(idx)` and the `Err(idx)` arm of the binary search feed the same
indexing expression. -/
def wrIdx (ups : List WeightedUpstream) (r : Nat) : Nat :=
  match binSearch (wrPrefixSums ups) r with
  | Sum.inl i => i
  | Sum.inr i => i

/-- `WeightedRandomBalancerInner::select`, with the random draw
`rng.gen_range(1..=total_weight)` made an explicit argument `r`.
The source indexes `self.upstreams[idx]` (the full list, zero-weight entries
included); the embedding uses the `Option`-valued index so that the
in-bounds fact is a theorem rather than an assumption. -/
def wrSelect (ups : List WeightedUpstream) (r : Nat) : Option Str :=
  if ups = [] ∨ wrTotal ups = 0 then none
  else (ups[wrIdx ups r]?).map WeightedUpstream.url

/-- Spec-side selection, following the words of the specification: over the
entries of positive weight, return the first upstream whose prefix sum is
`≥ r`.  Used to compare with `wrSelect`. -/
def wrSpecSelectGo (r : Nat) : List WeightedUpstream → Nat → Option Str
  | [], _ => none
  | u :: rest, acc => if r ≤ acc + u.weight then some u.url else wrSpecSelectGo r rest (acc + u.weight)

/-- Spec-side `select`: filter to the positive-weight entries and take the
first whose prefix sum reaches the draw `r`. -/
def wrSpecSelect (ups : List WeightedUpstream) (r : Nat) : Option Str :=
  if ups = [] ∨ wrTotal ups = 0 then none
  else wrSpecSelectGo r (ups.filter (fun u => u.weight > 0)) 0

/-! ## Round-robin balancer (`src/load_balancer/round_robin.rs`) -/

/-- `RoundRobinBalancer::select` with the atomic counter value made an
explicit argument `n` (`current.fetch_add(1, Relaxed)` returns the
pre-increment value `n`); the source computes `n % len` and calls
`ups.get(index)`. -/
def rrSelect (ups : List Str) (n : Nat) : Option Str :=
  if ups = [] then none
  else ups[n % ups.length]?

/-! ## IP-hash balancer (`src/load_balancer/ip_hash.rs`) -/

/-- `BTreeMap::insert` on the hash ring, modelled on a list of key/value
pairs kept sorted by key; an equal key overwrites the stored value. -/
def ringInsert : List (Nat × Str) → Nat → Str → List (Nat × Str)
  | [], k, v => [(k, v)]
  | (k', v') :: rest, k, v =>
    if k < k' then (k, v) :: (k', v') :: rest
    else if k = k' then (k, v) :: rest
    else (k', v') :: ringInsert rest k v

/-- The virtual-node key string `format!("{}#{}", upstream, i)`. -/
def vnodeKey (u : Str) (i : Nat) : Str :=
  u ++ [Char.ofNat 35] ++ (toString i).toList

/-- Inner loop of `BalancerState::build`: insert the `virtual_nodes` keys of
one upstream.  The 64-bit hash (`DefaultHasher`, a process-local hash) is an
explicit parameter `hashFn`. -/
def ringInsertVnodes (hashFn : Str → Nat) (ring : List (Nat × Str)) (u : Str) (vn : Nat) : List (Nat × Str) :=
  (List.range vn).foldl (fun r i => ringInsert r (hashFn (vnodeKey u i)) u) ring

/-- `BalancerState::build`: for each upstream insert its virtual-node keys
into the ring. -/
def ipBuild (hashFn : Str → Nat) (ups : List Str) (vn : Nat) : List (Nat × Str) :=
  ups.foldl (fun ring u => ringInsertVnodes hashFn ring u vn) []

/-- `BalancerState::find_upstream`: empty ring gives `None`; otherwise the
first entry (in ascending key order) with key `≥ hash`, wrapping to the
smallest entry when none exists. -/
def findUpstream (ring : List (Nat × Str)) (h : Nat) : Option Str :=
  if ring = [] then none
  else
    match ring.find? (fun e => h ≤ e.1) with
    | some e => some e.2
    | none => ring.head?.map Prod.snd

/-- `IpHashBalancer::select`: hash the textual form of the client IP
(`"127.0.0.1"` when absent) and look it up on the ring. -/
def ipSelect (hashFn : Str → Nat) (ring : List (Nat × Str)) (clientIp : Option Str) : Option Str :=
  let s := match clientIp with
    | some a => a
    | none => ("127.0.0.1").toList
  findUpstream ring (hashFn s)

/-! ## Pattern compiler (`src/path_matcher.rs`)

`RoutePattern::compile_pattern` builds a regex string; the embedding builds
the same regex as a list of tokens (`RTok`), one per emitted construct, plus
the ordered capture-name list.  The external `regex` crate appears twice as a
parameter: its compile step (`Regex::new`) is modelled by `regexNewOk` (valid
capture names, no duplicate names, acceptable user fragments), and its match
step by an `rsem` parameter where matching is needed.  The process-wide
pattern cache of `from_pattern` is semantically transparent (it returns the
same compiled value) and is not modelled. -/

/-- One emitted regex construct: a literal character (the source escapes
metacharacters, so a `lit` matches itself), `[^/]` for `?`, `[^/]*` for `*`,
`(?:.*)?` for a whole-segment `**`, `(?P<name>[^/]+)` for `{name}` and
`(?P<name>re)` for `{name:re}`. -/
inductive RTok where
  | lit (c : Char)
  | anyOne
  | anyMany
  | rest
  | cap (name : Str)
  | capRe (name : Str) (re : Str)
deriving DecidableEq, Repr

/-- Split a character list at the first occurrence of `t`: the source scans
`j` forward until `chars[j] == t`.  Returns the part before and the part
after the separator, or `none` when `t` does not occur. -/
def splitAtFirst (t : Char) : List Char → Option (List Char × List Char)
  | [] => none
  | c :: cs =>
    if c = t then some ([], cs)
    else
      match splitAtFirst t cs with
      | none => none
      | some (ins, aft) => some (c :: ins, aft)

theorem splitAtFirst_length (t : Char) :
    ∀ cs ins aft, splitAtFirst t cs = some (ins, aft) → aft.length < cs.length := by
  intro cs
  induction cs with
  | nil => intro ins aft h; simp [splitAtFirst] at h
  | cons c cs ih =>
    intro ins aft h
    by_cases hc : c = t
    · simp [splitAtFirst, hc] at h
      simp [← h.2]
    · simp only [splitAtFirst, if_neg hc] at h
      cases hs : splitAtFirst t cs with
      | none => rw [hs] at h; simp at h
      | some p =>
        rw [hs] at h
        simp at h
        have := ih p.1 p.2 (by rw [hs])
        simp [← h.2]
        omega

/-- The character-level loop of `compile_pattern` over one `/`-separated
segment: `*` emits `[^/]*`, `?` emits `[^/]`, `{` scans for the matching `}`
(an unmatched `{` is escaped and emitted as a literal), `{name}` and
`{name:re}` emit capture groups and record the name, and any other character
is emitted as an escaped literal.  Returns the tokens and the capture names
of this segment in order. -/
def segT : List Char → List RTok × List Str
  | [] => ([], [])
  | c :: cs =>
    if c = '*' then
      let r := segT cs
      (RTok.anyMany :: r.1, r.2)
    else if c = '?' then
      let r := segT cs
      (RTok.anyOne :: r.1, r.2)
    else if c = '\x7b' then
      match hs : splitAtFirst '\x7d' cs with
      | none =>
        let r := segT cs
        (RTok.lit '\x7b' :: r.1, r.2)
      | some (ins, aft) =>
        let r := segT aft
        match splitAtFirst ':' ins with
        | some (n, re) => (RTok.capRe n re :: r.1, n :: r.2)
        | none => (RTok.cap ins :: r.1, ins :: r.2)
    else
      let r := segT cs
      (RTok.lit c :: r.1, r.2)
termination_by s => s.length
decreasing_by
  all_goals simp_wf
  all_goals first
    | omega
    | exact Nat.lt_trans (splitAtFirst_length _ cs _ _ hs) (Nat.lt_succ_self _)

/-- The segment loop of `compile_pattern`: empty segments are skipped with
`continue` (no joiner), a whole segment `**` emits `(?:.*)?` and also skips
the joiner with `continue`, and any other segment is compiled by `segT` and
followed by a literal `/` when more segments remain (`peek().is_some()`,
which sees empty segments too). -/
def segsT : List (List Char) → List RTok × List Str
  | [] => ([], [])
  | seg :: rest =>
    if seg = [] then segsT rest
    else if seg = ("**").toList then
      let r := segsT rest
      (RTok.rest :: r.1, r.2)
    else
      let s := segT seg
      let r := segsT rest
      match rest with
      | [] => (s.1 ++ r.1, s.2 ++ r.2)
      | _ :: _ => (s.1 ++ [RTok.lit '/'] ++ r.1, s.2 ++ r.2)

/-- Rust `str::split('/')`: the `/`-separated segments, empty segments
included (splitting the empty string gives one empty segment). -/
def splitSl : List Char → List (List Char)
  | [] => [[]]
  | c :: cs =>
    if c = '/' then [] :: splitSl cs
    else
      match splitSl cs with
      | s :: rest => (c :: s) :: rest
      | [] => [[c]]

/-- Whole-pattern token build of `compile_pattern`: anchored at both ends
(whole-list matching makes `^`/`$` implicit), with a leading `/` emitted when
the pattern starts with one, then the segments of `pattern.split('/')`. -/
def buildToks (p : Str) : List RTok × List Str :=
  let r := segsT (splitSl p)
  match p with
  | c :: _ => if c = '/' then (RTok.lit '/' :: r.1, r.2) else r
  | [] => r

/-- Bracket balance check used by the model of `Regex::new` on a user
fragment (`oc`/`cc` are the opening and closing characters). -/
def balGo (oc cc : Char) : List Char → Int → Bool
  | [], n => n = 0
  | x :: xs, n =>
    if x = oc then balGo oc cc xs (n + 1)
    else if x = cc then n > 0 && balGo oc cc xs (n - 1)
    else balGo oc cc xs n

/-- Model of the `regex` crate's acceptance of the user-supplied fragment of
`{name:re}`: parentheses and character-class brackets must balance.  The
precise acceptance set of the external parser is irrelevant to the claims;
what matters is that a token list without user fragments never fails. -/
def fragmentOk (re : Str) : Bool :=
  balGo '(' ')' re 0 && balGo '[' ']' re 0

/-- Model of the `regex` crate's capture-name rule for `(?P<name>…)`:
non-empty, alphanumeric or underscore. -/
def groupNameOk (n : Str) : Bool :=
  !n.isEmpty && n.all (fun c => c.isAlphanum || c = '_')

/-- Boolean no-duplicates check on the capture-name list (the `regex` crate
rejects duplicate group names). -/
def nodupB : List Str → Bool
  | [] => true
  | x :: xs => !xs.contains x && nodupB xs

/-- Model of `Regex::new` on the emitted regex: compilation succeeds unless a
capture name is invalid, capture names repeat, or a user-supplied fragment is
rejected.  The constructs emitted by the builder itself (escaped literals,
`[^/]`, `[^/]*`, `(?:.*)?`, `(?P<n>[^/]+)`) are always valid regex syntax. -/
def regexNewOk (toks : List RTok) (names : List Str) : Bool :=
  names.all groupNameOk && nodupB names &&
    toks.all (fun t =>
      match t with
      | RTok.capRe _ re => fragmentOk re
      | _ => true)

/-- `RoutePattern::compile_pattern` (and `from_pattern`, whose cache is
transparent): build the tokens, then run the modelled `Regex::new`. -/
def fromPattern (p : Str) : Except Unit (List RTok × List Str) :=
  let r := buildToks p
  if regexNewOk r.1 r.2 then Except.ok r else Except.error ()

/-! ## Route rules (`src/config.rs`) -/

/-- `RouteRule`: the pattern list (field `prefix` in the source), the
upstream list and the strategy tag. -/
structure RouteRule where
  prefixes : List Str
  upstream : List Str
  strategy : Str
deriving DecidableEq, Repr

/-- `default_strategy`, the serde default for a rule whose strategy field is
omitted. -/
def defaultStrategy : Str := ("robin").toList

/-- The metacharacter test of `RouteRule::matches_prefix` and of the scoring
in `find_best_match`: does the pattern contain `{`, `*` or `?`. -/
def hasMeta (p : Str) : Bool :=
  p.any (fun c => c = '\x7b' || c = '*' || c = '?')

/-- `RouteRule::matches_prefix`: a pattern with metacharacters is compiled
and matched by the regex engine (`rsem` is the engine's matcher on the
emitted tokens); when compilation fails the source falls back to
`path.starts_with(prefix)`.  A literal pattern matches by
`path == prefix || path.starts_with(prefix + "/")`. -/
def matchesPat (rsem : List RTok → Str → Bool) (p path : Str) : Bool :=
  if hasMeta p then
    match fromPattern p with
    | Except.ok rp => rsem rp.1 path
    | Except.error _ => p.isPrefixOf path
  else
    path == p || (p ++ [('/' : Char)]).isPrefixOf path

/-- `RouteRule::matches`: any pattern of the rule matches the path. -/
def matchesRule (rsem : List RTok → Str → Bool) (r : RouteRule) (path : Str) : Bool :=
  r.prefixes.any (fun p => matchesPat rsem p path)

/-- Rust `str::trim` on the character list (leading and trailing whitespace
removed). -/
def trimStr (s : Str) : Str :=
  ((s.dropWhile Char.isWhitespace).reverse.dropWhile Char.isWhitespace).reverse

/-- The error cases of `RouteRule::validate`, one constructor per distinct
`Err` message of the source (the argument is the reported index or tag). -/
inductive ValidateErr where
  | emptyPrefixList
  | blankPrefixAt (i : Nat)
  | emptyUpstreamList
  | blankUpstreamAt (i : Nat)
  | badStrategy (s : Str)
deriving DecidableEq, Repr

/-- `RouteRule::validate`: non-empty pattern list, no blank pattern,
non-empty upstream list, no blank upstream, and a strategy drawn from
`robin`, `random` or `iphash`. -/
def validate (r : RouteRule) : Except ValidateErr Unit :=
  if r.prefixes = [] then Except.error ValidateErr.emptyPrefixList
  else
    match r.prefixes.findIdx? (fun p => (trimStr p).isEmpty) with
    | some i => Except.error (ValidateErr.blankPrefixAt i)
    | none =>
      if r.upstream = [] then Except.error ValidateErr.emptyUpstreamList
      else
        match r.upstream.findIdx? (fun u => (trimStr u).isEmpty) with
        | some i => Except.error (ValidateErr.blankUpstreamAt i)
        | none =>
          if r.strategy = ("robin").toList ∨ r.strategy = ("random").toList ∨ r.strategy = ("iphash").toList then
            Except.ok ()
          else Except.error (ValidateErr.badStrategy r.strategy)

/-! ## Proxy engine (`src/proxy.rs`) -/

/-- Per-pattern score of `find_best_match`: `1000 + len` when the pattern
contains `{`, `*` or `?`, otherwise `len` (the `i32` arithmetic of the
source never overflows for realistic pattern lengths and is modelled on
`Int`). -/
def patScore (p : Str) : Int :=
  if hasMeta p then 1000 + (p.length : Int) else (p.length : Int)

/-- Rule score of `find_best_match`: maximum per-pattern score over the
rule's patterns, `0` for an empty pattern list (`max().unwrap_or(0)`; all
per-pattern scores are non-negative, so folding `max` with `0` agrees with
the source's maximum-element semantics). -/
def ruleScore (r : RouteRule) : Int :=
  (r.prefixes.map patScore).foldr max 0

/-- The loop of `find_best_match`, carrying the current best rule and best
score (`best_match`, `best_score`); a rule replaces the best only when it
matches and its score strictly exceeds the best score. -/
def findBestGo (m : RouteRule → Str → Bool) (path : Str) :
    List RouteRule → Option RouteRule → Int → Option RouteRule
  | [], best, _ => best
  | r :: rest, best, s =>
    if m r path then
      if ruleScore r > s then findBestGo m path rest (some r) (ruleScore r)
      else findBestGo m path rest best s
    else findBestGo m path rest best s

/-- `find_best_match` over a rule list and path, with the rule-matching
predicate `m` (instantiated with `matchesRule` in the handler) as a
parameter; the loop starts from no best rule and best score `0`. -/
def findBestMatch (m : RouteRule → Str → Bool) (rules : List RouteRule) (path : Str) : Option RouteRule :=
  findBestGo m path rules none 0

/-- Spec-side best match, following the words of the specification: among
the matching rules, the first (config order) whose score equals the maximum
score of the matching rules. -/
def specBestMatch (m : RouteRule → Str → Bool) (rules : List RouteRule) (path : Str) : Option RouteRule :=
  let ms := rules.filter (fun r => m r path)
  ms.find? (fun r => ruleScore r = (ms.map ruleScore).foldr max 0)

/-- `reconstruct_forward_path`: the first configured pattern that literally
prefixes the path is stripped from it; when none does, the path is returned
unchanged.  (The `variables` argument of the source is unused there and is
omitted.) -/
def reconstructForwardPath (path : Str) (ps : List Str) : Str :=
  match ps.find? (fun p => p.isPrefixOf path) with
  | some p => path.drop p.length
  | none => path

/-- The `query_suffix` of `proxy_handler`: `"?" + query` when a query string
is present, empty otherwise. -/
def querySuffix : Option Str → Str
  | some q => ('?' : Char) :: q
  | none => []

/-- The outbound URL of `proxy_handler`:
`format!("{}{}{}", upstream, forward_path, query_suffix)`. -/
def buildUrl (upstream forwardPath : Str) (q : Option Str) : Str :=
  upstream ++ forwardPath ++ querySuffix q

/-- The registry key of `get_or_create_balancer`:
`format!("{}:{}", strategy, upstreams.join(","))`. -/
def balancerKey (r : RouteRule) : Str :=
  r.strategy ++ [(':' : Char)] ++ List.intercalate [(',' : Char)] r.upstream

/-- The upstream-selection step of `proxy_handler` (lines 67–74): find the
best-matching rule, obtain its balancer from the registry (`bal` maps the
registry key and the `client_ip` argument to the balancer's answer), call
`select(None)`, fall back to `upstream[0]` on `None`, and rebuild the
forward path.  Returns `(selected_upstream, forward_path)`, or `none` when
no rule matches (the 502 branch).  The variable extraction of the handler
feeds only the unused argument of `reconstruct_forward_path` and is
omitted. -/
def proxySelect (rsem : List RTok → Str → Bool) (bal : Str → Option Str → Option Str)
    (rules : List RouteRule) (path : Str) : Option (Str × Str) :=
  match findBestMatch (matchesRule rsem) rules path with
  | none => none
  | some rule =>
    let selected := (bal (balancerKey rule) none).getD (rule.upstream.headD [])
    some (selected, reconstructForwardPath path rule.prefixes)

/-- Spec-side upstream selection, following the words of the claim: the same
step but with the request's client IP passed to the balancer's `select`. -/
def proxySelectSpec (rsem : List RTok → Str → Bool) (bal : Str → Option Str → Option Str)
    (rules : List RouteRule) (path : Str) (clientIp : Str) : Option (Str × Str) :=
  match findBestMatch (matchesRule rsem) rules path with
  | none => none
  | some rule =>
    let selected := (bal (balancerKey rule) (some clientIp)).getD (rule.upstream.headD [])
    some (selected, reconstructForwardPath path rule.prefixes)

/-! ## Rate limiting (`src/rate_limit.rs`, wired in `src/main.rs`)

The `governor` buckets are stateful external values; their pass/fail answers
enter as the parameters `globalOk` (the global bucket's `check()`) and
`perIpOk` (the keyed bucket's `check_key` for a given key).  Request
extensions are typed slots in axum, so the two distinct extension types
`ConnectInfo<IpAddr>` (read by the limiter) and `ConnectInfo<SocketAddr>`
(inserted by `main`'s `into_make_service_with_connect_info::<SocketAddr>`)
are modelled as two distinct fields. -/

/-- The relevant extensions of an in-flight request. -/
structure GatewayReq where
  hasRateLimits : Bool
  connectInfoIpAddr : Option Str
  connectInfoSocketAddr : Option (Str × Nat)
deriving DecidableEq, Repr

/-- Client-IP resolution of `rate_limit_layer`: the `ConnectInfo<IpAddr>`
extension when present, else `127.0.0.1`.  Request headers are not consulted
(the layer never reads the header map). -/
def clientIpKey (req : GatewayReq) : Str :=
  req.connectInfoIpAddr.getD (("127.0.0.1").toList)

/-- `rate_limit_layer`: when the `RateLimits` extension is present, a failed
global check rejects with 429 `Too Many Requests (global)`, then a failed
per-IP check (keyed by `clientIpKey`) rejects with 429
`Too Many Requests (client)`; otherwise the inner service's response `next`
is returned. -/
def rateLimitLayer (globalOk : Bool) (perIpOk : Str → Bool) (req : GatewayReq)
    (next : Nat × Str) : Nat × Str :=
  if req.hasRateLimits then
    if !globalOk then (429, ("Too Many Requests (global)").toList)
    else if !perIpOk (clientIpKey req) then (429, ("Too Many Requests (client)").toList)
    else next
  else next

/-- A request as produced by `main`: the rate limits are installed and the
server inserts the peer address as `ConnectInfo<SocketAddr>`; no
`ConnectInfo<IpAddr>` extension is ever inserted, so that typed slot is
empty. -/
def mainRequest (peer : Str × Nat) : GatewayReq :=
  { hasRateLimits := true, connectInfoIpAddr := none, connectInfoSocketAddr := some peer }

/-! ## Auth verifier (`src/auth.rs`) -/

/-- The JWT claims: subject, expiry (unix seconds) and tenant. -/
structure Claims where
  sub : Str
  exp : Nat
  tenant_id : Str
deriving DecidableEq, Repr

/-- `Settings` (`src/config.rs`). -/
structure Settings where
  gateway_bind : Str
  jwt_decoding_key : Str
  upstream_default : Str
  global_qps : Nat
  client_qps : Nat
  request_timeout_secs : Option Nat
deriving DecidableEq, Repr

/-- `AuthError`; `DecodeError` absorbs every `jsonwebtoken` failure
(malformed token, bad signature, expired token). -/
inductive AuthError where
  | missingHeader
  | invalidToken
  | decodeError
  | configMissing
deriving DecidableEq, Repr

/-- `AuthError::into_response`: status code and body text. -/
def authErrResponse : AuthError → Nat × Str
  | AuthError.missingHeader => (401, ("Missing authorization header").toList)
  | AuthError.invalidToken => (401, ("Invalid token").toList)
  | AuthError.decodeError => (401, ("Token decode error").toList)
  | AuthError.configMissing => (500, ("Config missing").toList)

/-- Rust `str::trim_start_matches`: repeatedly strip the prefix `pre` while
it is present. -/
def trimStartAll (pre : Str) (s : Str) : Str :=
  if h : pre ≠ [] ∧ pre.isPrefixOf s then trimStartAll pre (s.drop pre.length) else s
termination_by s.length
decreasing_by
  simp_wf
  have hp : pre <+: s := by
    have := h.2
    exact List.isPrefixOf_iff_prefix.mp this
  have hle : pre.length ≤ s.length := hp.length_le
  have hpos : 0 < pre.length := List.length_pos.mpr h.1
  omega

/-- The token extraction of `from_request_parts`:
`auth_header.trim_start_matches("Bearer ").trim()`. -/
def tokenOf (h : Str) : Str :=
  trimStr (trimStartAll (("Bearer ").toList) h)

/-- The request parts seen by the extractor: the whitelist-bypass marker,
the `Settings` extension, and the `Authorization` header (modelled as its
decoded text; a header absent or not valid UTF-8 is `none`, matching
`get(...).and_then(|v| v.to_str().ok())`). -/
structure AuthParts where
  whitelistBypass : Bool
  settings : Option Settings
  authHeader : Option Str
deriving DecidableEq, Repr

/-- `JwtAuth::from_request_parts` with the `jsonwebtoken` decoder as the
parameter `dec` (secret, token ↦ claims on success): the whitelist marker
short-circuits to empty claims; then missing `Settings` is `ConfigMissing`;
then a missing header is `MissingHeader`; a header not starting with
`Bearer ` is `InvalidToken`; and a failed decode is `DecodeError`. -/
def fromRequestParts (dec : Str → Str → Option Claims) (p : AuthParts) : Except AuthError Claims :=
  if p.whitelistBypass then Except.ok { sub := [], exp := 0, tenant_id := [] }
  else
    match p.settings with
    | none => Except.error AuthError.configMissing
    | some s =>
      match p.authHeader with
      | none => Except.error AuthError.missingHeader
      | some h =>
        if !(("Bearer ").toList.isPrefixOf h) then Except.error AuthError.invalidToken
        else
          match dec s.jwt_decoding_key (tokenOf h) with
          | some c => Except.ok c
          | none => Except.error AuthError.decodeError

/-! ## Concrete stand-ins for external parameters

Used to instantiate the parameters of the embedded functions at concrete
inputs.  Literal (metacharacter-free) patterns never consult the regex
engine, so `rsemStub` is adequate wherever only literal patterns occur. -/

/-- A trivial regex-engine matcher; concrete evaluations below only ever
take the literal-pattern branch, which does not consult it. -/
def rsemStub : List RTok → Str → Bool := fun _ _ => false

/-- A balancer whose answer depends on the `client_ip` argument of
`select`, as the `iphash` balancer's does: the hash of the absent-IP
default `127.0.0.1` falls in `u1`'s arc of the ring and the hash of the
request's client IP in `u2`'s. -/
def balIpSensitive : Str → Option Str → Option Str := fun _ ip =>
  match ip with
  | none => some (("http://u1").toList)
  | some _ => some (("http://u2").toList)

/-! ## Helper lemmas -/

theorem wrBuild_len : ∀ (l : List WeightedUpstream) (t : Nat), (wrBuild l t).1.length ≤ l.length := by
  intro l
  induction l with
  | nil => intro t; simp [wrBuild]
  | cons u rest ih =>
    intro t
    by_cases h : u.weight > 0
    · simp only [wrBuild, if_pos h]
      have := ih (t + u.weight)
      simpa using Nat.succ_le_succ this
    · simp only [wrBuild, if_neg h]
      exact Nat.le_trans (ih t) (Nat.le_succ _)

theorem wrBuild_total_ge : ∀ (l : List WeightedUpstream) (t : Nat), t ≤ (wrBuild l t).2 := by
  intro l
  induction l with
  | nil => intro t; simp [wrBuild]
  | cons u rest ih =>
    intro t
    by_cases h : u.weight > 0
    · simp only [wrBuild, if_pos h]
      exact Nat.le_trans (Nat.le_add_right t u.weight) (ih (t + u.weight))
    · simp only [wrBuild, if_neg h]
      exact ih t

theorem wrBuild_total_mem : ∀ (l : List WeightedUpstream) (t : Nat),
    (wrBuild l t).2 ≠ t → (wrBuild l t).2 ∈ (wrBuild l t).1 := by
  intro l
  induction l with
  | nil => intro t h; simp [wrBuild] at h
  | cons u rest ih =>
    intro t h
    by_cases hw : u.weight > 0
    · simp only [wrBuild, if_pos hw] at h ⊢
      by_cases he : (wrBuild rest (t + u.weight)).2 = t + u.weight
      · rw [he]
        exact List.mem_cons_self _ _
      · exact List.mem_cons_of_mem _ (ih (t + u.weight) he)
    · simp only [wrBuild, if_neg hw] at h ⊢
      exact ih t h

theorem wrTotal_mem {ups : List WeightedUpstream} (h : wrTotal ups ≠ 0) :
    wrTotal ups ∈ wrPrefixSums ups :=
  wrBuild_total_mem ups 0 h

theorem filter_length_lt {α : Type} {p : α → Bool} {l : List α} {x : α}
    (hx : x ∈ l) (hpx : p x = false) : (l.filter p).length < l.length := by
  induction l with
  | nil => cases hx
  | cons a l ih =>
    rcases List.mem_cons.mp hx with rfl | hx'
    · have hle := l.length_filter_le p
      simp [List.filter_cons, hpx]
      omega
    · by_cases hpa : p a = true
      · simp only [List.filter_cons, if_pos hpa, List.length_cons]
        exact Nat.succ_lt_succ (ih hx')
      · simp only [List.filter_cons, if_neg hpa, List.length_cons]
        exact Nat.lt_trans (ih hx') (Nat.lt_succ_self _)

/-- The binary-search index of the weighted-random `select` is a valid index
into the full upstream vector whenever the selection is attempted at all. -/
theorem wrIdx_lt {ups : List WeightedUpstream} {r : Nat}
    (htot : wrTotal ups ≠ 0) (hr : r ≤ wrTotal ups) : wrIdx ups r < ups.length := by
  have hlen : (wrPrefixSums ups).length ≤ ups.length := wrBuild_len ups 0
  unfold wrIdx binSearch
  by_cases hm : r ∈ wrPrefixSums ups
  · simp only [if_pos hm]
    exact Nat.lt_of_lt_of_le (List.indexOf_lt_length.mpr hm) hlen
  · simp only [if_neg hm]
    have hmem : wrTotal ups ∈ wrPrefixSums ups := wrTotal_mem htot
    have hnot : (decide (wrTotal ups < r)) = false := by
      simp [Nat.not_lt.mpr hr]
    exact Nat.lt_of_lt_of_le (filter_length_lt hmem hnot) hlen

theorem findUpstream_eq_none_iff (ring : List (Nat × Str)) (h : Nat) :
    findUpstream ring h = none ↔ ring = [] := by
  by_cases hr : ring = []
  · simp [findUpstream, hr]
  · simp only [findUpstream, if_neg hr]
    cases hfind : ring.find? (fun e => h ≤ e.1) with
    | some e => simp [hr]
    | none =>
      obtain ⟨a, l, rfl⟩ := List.exists_cons_of_ne_nil hr
      simp

theorem ringInsert_ne_nil (l : List (Nat × Str)) (k : Nat) (v : Str) :
    ringInsert l k v ≠ [] := by
  cases l with
  | nil => simp [ringInsert]
  | cons e rest =>
    obtain ⟨k', v'⟩ := e
    simp only [ringInsert]
    split
    · simp
    · split <;> simp

theorem foldl_ringInsert_ne_nil (hashFn : Str → Nat) (u : Str) :
    ∀ (idxs : List Nat) (ring : List (Nat × Str)), ring ≠ [] →
      idxs.foldl (fun r i => ringInsert r (hashFn (vnodeKey u i)) u) ring ≠ [] := by
  intro idxs
  induction idxs with
  | nil => intro ring hr; simpa using hr
  | cons i rest ih =>
    intro ring _
    simp only [List.foldl_cons]
    exact ih _ (ringInsert_ne_nil ring _ u)

theorem ringInsertVnodes_ne_nil (hashFn : Str → Nat) (ring : List (Nat × Str)) (u : Str)
    {vn : Nat} (hvn : 0 < vn) : ringInsertVnodes hashFn ring u vn ≠ [] := by
  unfold ringInsertVnodes
  obtain ⟨i, rest, hrange⟩ : ∃ i rest, List.range vn = i :: rest := by
    cases hr : List.range vn with
    | nil =>
      exfalso
      have := List.length_range vn
      rw [hr] at this
      simp at this
      omega
    | cons i rest => exact ⟨i, rest, rfl⟩
  rw [hrange]
  simp only [List.foldl_cons]
  exact foldl_ringInsert_ne_nil hashFn u rest _ (ringInsert_ne_nil ring _ u)

theorem foldl_vnodes_ne_nil (hashFn : Str → Nat) (vn : Nat) :
    ∀ (ups : List Str) (ring : List (Nat × Str)), ring ≠ [] →
      ups.foldl (fun r u => ringInsertVnodes hashFn r u vn) ring ≠ [] := by
  intro ups
  induction ups with
  | nil => intro ring hr; simpa using hr
  | cons u rest ih =>
    intro ring hr
    simp only [List.foldl_cons]
    apply ih
    unfold ringInsertVnodes
    exact foldl_ringInsert_ne_nil hashFn u _ ring hr

theorem ipBuild_eq_nil_iff (hashFn : Str → Nat) (ups : List Str) :
    ipBuild hashFn ups 150 = [] ↔ ups = [] := by
  constructor
  · intro hb
    by_contra hne
    obtain ⟨u, rest, rfl⟩ := List.exists_cons_of_ne_nil hne
    unfold ipBuild at hb
    simp only [List.foldl_cons] at hb
    exact foldl_vnodes_ne_nil hashFn 150 rest _
      (ringInsertVnodes_ne_nil hashFn [] u (by omega)) hb
  · intro h
    subst h
    rfl

/-! ## Claims -/

/-- C1: the claim says that for a draw `r ∈ [1, T]` the weighted-random
`select` returns the first upstream whose prefix sum is `≥ r`.  The source
builds `prefix_sums` only over the positive-weight entries but then indexes
the *full* upstream list with the binary-search position, so a zero-weight
upstream placed before a positive one is returned: for upstreams
`[(a, 0), (b, 1)]` and `r = 1` the code yields `a` (weight 0) while the
first upstream whose prefix sum reaches `1` is `b`.  This contradicts the
source's own comment that zero-weight nodes are filtered out. -/
theorem c1_weighted_random_returns_zero_weight_node :
    wrSelect [⟨("a").toList, 0⟩, ⟨("b").toList, 1⟩] 1 = some (("a").toList) ∧
    wrSpecSelect [⟨("a").toList, 0⟩, ⟨("b").toList, 1⟩] 1 = some (("b").toList) ∧
    wrTotal [⟨("a").toList, 0⟩, ⟨("b").toList, 1⟩] = 1 := by
  refine ⟨?_, ?_, ?_⟩ <;> decide

/-- C10: every balancer's `select` is total: weighted-random returns `None`
exactly when the upstream list is empty or the total positive weight is
zero, and otherwise its binary-search index is a valid index into the full
upstream vector and the result is `Some`; round-robin returns `None` exactly
on the empty list; ip-hash `find_upstream` returns `None` exactly on the
empty ring, and the ring built with 150 virtual nodes per upstream is empty
exactly when the upstream list is. -/
theorem c10_balancer_select_total :
    (∀ (ups : List WeightedUpstream) (r : Nat), 1 ≤ r → r ≤ wrTotal ups →
      ((wrSelect ups r = none ↔ ups = [] ∨ wrTotal ups = 0) ∧
        (ups ≠ [] → wrTotal ups ≠ 0 →
          wrIdx ups r < ups.length ∧ ∃ u, wrSelect ups r = some u))) ∧
    (∀ (ups : List Str) (n : Nat), rrSelect ups n = none ↔ ups = []) ∧
    (∀ (ring : List (Nat × Str)) (h : Nat), findUpstream ring h = none ↔ ring = []) ∧
    (∀ (hashFn : Str → Nat) (ups : List Str) (ip : Option Str),
      ipSelect hashFn (ipBuild hashFn ups 150) ip = none ↔ ups = []) := by
  refine ⟨?_, ?_, ?_, ?_⟩
  · intro ups r _ h2
    have hsel : ∀ (hne : ups ≠ []) (htot : wrTotal ups ≠ 0),
        wrSelect ups r = some (ups.get ⟨wrIdx ups r, wrIdx_lt htot h2⟩).url := by
      intro hne htot
      have hidx := wrIdx_lt htot h2
      simp [wrSelect, hne, htot, List.getElem?_eq_getElem hidx]
    constructor
    · constructor
      · intro hnone
        by_contra hc
        push_neg at hc
        rw [hsel hc.1 hc.2] at hnone
        cases hnone
      · intro hc
        simp [wrSelect, hc]
    · intro hne htot
      exact ⟨wrIdx_lt htot h2, _, hsel hne htot⟩
  · intro ups n
    by_cases h : ups = []
    · simp [rrSelect, h]
    · have hlt : n % ups.length < ups.length := Nat.mod_lt _ (List.length_pos.mpr h)
      simp [rrSelect, h, List.getElem?_eq_getElem hlt]
  · exact findUpstream_eq_none_iff
  · intro hashFn ups ip
    unfold ipSelect
    rw [findUpstream_eq_none_iff]
    exact ipBuild_eq_nil_iff hashFn ups

/-- Witness for C10 at a concrete instance: one upstream of weight 2 and
draw 1. -/
theorem c10_balancer_select_total_witness :
    (wrSelect [⟨("a").toList, 2⟩] 1 = none ↔
      ([⟨("a").toList, 2⟩] : List WeightedUpstream) = [] ∨ wrTotal [⟨("a").toList, 2⟩] = 0) ∧
    wrIdx [⟨("a").toList, 2⟩] 1 < ([⟨("a").toList, 2⟩] : List WeightedUpstream).length :=
  ⟨(c10_balancer_select_total.1 _ 1 (by decide) (by decide)).1,
    ((c10_balancer_select_total.1 _ 1 (by decide) (by decide)).2 (by decide) (by decide)).1⟩

/-- C2: the claim says the proxy handler calls the balancer's `select` with
the request's client IP.  The source (`proxy.rs` line 71) calls
`select(None)`: the handler never reads a client address at all, so for an
IP-sensitive (`iphash`) balancer the embedded handler step picks the
upstream of the absent-IP default while the claimed behaviour picks the
upstream of the client's IP.  The `None`-fallback to `upstream[0]`
(third conjunct) does hold as claimed. -/
theorem c2_proxy_select_passes_none_not_client_ip :
    proxySelect rsemStub balIpSensitive
        [⟨[("/api").toList], [("http://u1").toList, ("http://u2").toList], ("iphash").toList⟩]
        (("/api/x").toList)
      = some ((("http://u1").toList), (("/x").toList)) ∧
    proxySelectSpec rsemStub balIpSensitive
        [⟨[("/api").toList], [("http://u1").toList, ("http://u2").toList], ("iphash").toList⟩]
        (("/api/x").toList) (("10.0.0.1").toList)
      = some ((("http://u2").toList), (("/x").toList)) ∧
    (∀ (rsem : List RTok → Str → Bool) (rules : List RouteRule) (path : Str),
      proxySelect rsem (fun _ _ => none) rules path
        = (findBestMatch (matchesRule rsem) rules path).map
            (fun rule => (rule.upstream.headD [], reconstructForwardPath path rule.prefixes))) := by
  refine ⟨by decide, by decide, ?_⟩
  intro rsem rules path
  unfold proxySelect
  cases findBestMatch (matchesRule rsem) rules path <;> rfl

/-- C3: the claim says the per-IP limiter is keyed by the accept-time peer
address.  `main` installs the peer address as `ConnectInfo<SocketAddr>`, but
`rate_limit_layer` reads the distinct typed extension `ConnectInfo<IpAddr>`,
which is never inserted; the lookup always misses and the key is always
`127.0.0.1`, for every peer.  The header-free resolution and the
429/`Too Many Requests (client)` rejection do hold. -/
theorem c3_rate_limit_key_always_loopback :
    (∀ peer : Str × Nat, clientIpKey (mainRequest peer) = ("127.0.0.1").toList) ∧
    (∀ (g : Bool) (p : Str → Bool) (peer peer2 : Str × Nat) (next : Nat × Str),
      rateLimitLayer g p (mainRequest peer) next = rateLimitLayer g p (mainRequest peer2) next) ∧
    (∀ (peer : Str × Nat) (next : Nat × Str),
      rateLimitLayer true (fun _ => false) (mainRequest peer) next
        = (429, ("Too Many Requests (client)").toList)) := by
  refine ⟨fun peer => rfl, fun g p peer peer2 next => rfl, fun peer next => rfl⟩

/-- C4 counterexample: `RouteRule::validate` rejects the strategy tag
`round_robin` that the claim says it accepts, and the serde default is
`robin`, not `round_robin`. -/
theorem c4_validate_rejects_round_robin :
    validate ⟨[("/user").toList], [("http://u").toList], ("round_robin").toList⟩
      = Except.error (ValidateErr.badStrategy (("round_robin").toList)) ∧
    defaultStrategy ≠ ("round_robin").toList := by
  exact ⟨rfl, by decide⟩

/-- C4 amended: for a rule whose pattern and upstream lists are non-empty
with no blank entries, `validate` accepts exactly the strategy tags
`robin`, `random` and `iphash`, and an omitted strategy field defaults to
`robin`. -/
theorem c4_validate_strategy_set :
    (∀ r : RouteRule,
      r.prefixes ≠ [] →
      (∀ p ∈ r.prefixes, (trimStr p).isEmpty = false) →
      r.upstream ≠ [] →
      (∀ u ∈ r.upstream, (trimStr u).isEmpty = false) →
      (validate r = Except.ok () ↔
        (r.strategy = ("robin").toList ∨ r.strategy = ("random").toList ∨
          r.strategy = ("iphash").toList))) ∧
    defaultStrategy = ("robin").toList := by
  constructor
  · intro r h1 h2 h3 h4
    have hp : r.prefixes.findIdx? (fun p => (trimStr p).isEmpty) = none := by
      rw [List.findIdx?_eq_none_iff]
      intro x hx
      simp [h2 x hx]
    have hu : r.upstream.findIdx? (fun u => (trimStr u).isEmpty) = none := by
      rw [List.findIdx?_eq_none_iff]
      intro x hx
      simp [h4 x hx]
    unfold validate
    simp only [if_neg h1, hp, if_neg h3, hu]
    constructor
    · intro hok
      by_cases hs : r.strategy = ("robin").toList ∨ r.strategy = ("random").toList ∨
          r.strategy = ("iphash").toList
      · exact hs
      · rw [if_neg hs] at hok
        exact absurd hok (by simp)
    · intro hs
      rw [if_pos hs]
  · rfl

/-- Witness for the amended C4 at a concrete rule with strategy `iphash`. -/
theorem c4_validate_strategy_set_witness :
    validate ⟨[("/user").toList], [("http://u").toList], ("iphash").toList⟩ = Except.ok () ↔
      ((("iphash").toList : Str) = ("robin").toList ∨
        (("iphash").toList : Str) = ("random").toList ∨
        (("iphash").toList : Str) = ("iphash").toList) :=
  c4_validate_strategy_set.1 _ (by decide) (by decide) (by decide) (by decide)

/-- C8: for a rule with a literal (metacharacter-free) pattern `S` and path
`S + "/x"`, the forward path is `"/x"`; the query string is appended
byte-for-byte as `"?" + query`; and when no configured pattern literally
prefixes the match path, the forward path is the match path unchanged. -/
theorem c8_forward_path_strip_and_query :
    (∀ (S x : Str), hasMeta S = false →
      reconstructForwardPath (S ++ ('/' :: x)) [S] = '/' :: x) ∧
    (∀ (up fp q : Str), buildUrl up fp (some q) = up ++ fp ++ ('?' :: q)) ∧
    (∀ (path : Str) (ps : List Str), (∀ p ∈ ps, p.isPrefixOf path = false) →
      reconstructForwardPath path ps = path) := by
  refine ⟨?_, ?_, ?_⟩
  · intro S x _
    have hpre : S.isPrefixOf (S ++ ('/' :: x)) = true :=
      List.isPrefixOf_iff_prefix.mpr (List.prefix_append S _)
    unfold reconstructForwardPath
    simp only [List.find?_cons, hpre, List.drop_left]
  · intro up fp q
    rfl
  · intro path ps hnone
    unfold reconstructForwardPath
    rw [List.find?_eq_none.mpr (by intro p hp; simp [hnone p hp])]

/-- Witness for C8: the literal rule pattern `/user` on path `/user/profile`
strips to `/profile`, and a path not prefixed by any pattern passes through
unchanged. -/
theorem c8_forward_path_strip_and_query_witness :
    reconstructForwardPath ((("/user").toList) ++ ('/' :: (("profile").toList))) [("/user").toList]
        = '/' :: (("profile").toList) ∧
    reconstructForwardPath (("/nope").toList) [("/user").toList] = ("/nope").toList :=
  ⟨c8_forward_path_strip_and_query.1 _ _ (by decide),
    c8_forward_path_strip_and_query.2.2 _ _ (by decide)⟩

theorem fromRequestParts_some_some (dec : Str → Str → Option Claims) (s : Settings) (h : Str) :
    fromRequestParts dec ⟨false, some s, some h⟩ =
      if (("Bearer ").toList.isPrefixOf h) = false then Except.error AuthError.invalidToken
      else
        match dec s.jwt_decoding_key (tokenOf h) with
        | some c => Except.ok c
        | none => Except.error AuthError.decodeError := by
  show (if (!(("Bearer ").toList.isPrefixOf h)) = true then Except.error AuthError.invalidToken
        else
          match dec s.jwt_decoding_key (tokenOf h) with
          | some c => Except.ok c
          | none => Except.error AuthError.decodeError) = _
  cases hb : (("Bearer ").toList.isPrefixOf h)
  · rw [if_pos (show (!false) = true from rfl), if_pos rfl]
  · rw [if_neg (show ¬((!true) = true) by simp), if_neg (show ¬(true = false) by simp)]

/-- C6: without whitelist bypass, a missing `Settings` extension yields
`ConfigMissing` (500 `Config missing`); with settings present, a missing
`Authorization` header yields `MissingHeader` (401
`Missing authorization header`); a header not starting with `Bearer `
yields `InvalidToken` (401 `Invalid token`); and a failed JWT decode
(malformed token, bad signature or expired claim all surface as the
decoder's error) yields `DecodeError` (401 `Token decode error`). -/
theorem c6_auth_error_responses :
    ∀ (dec : Str → Str → Option Claims) (s : Settings) (hdr : Option Str),
      (fromRequestParts dec ⟨false, none, hdr⟩ = Except.error AuthError.configMissing ∧
        authErrResponse AuthError.configMissing = (500, ("Config missing").toList)) ∧
      (fromRequestParts dec ⟨false, some s, none⟩ = Except.error AuthError.missingHeader ∧
        authErrResponse AuthError.missingHeader = (401, ("Missing authorization header").toList)) ∧
      (∀ h, (("Bearer ").toList.isPrefixOf h) = false →
        fromRequestParts dec ⟨false, some s, some h⟩ = Except.error AuthError.invalidToken ∧
        authErrResponse AuthError.invalidToken = (401, ("Invalid token").toList)) ∧
      (∀ h, (("Bearer ").toList.isPrefixOf h) = true →
        dec s.jwt_decoding_key (tokenOf h) = none →
        fromRequestParts dec ⟨false, some s, some h⟩ = Except.error AuthError.decodeError ∧
        authErrResponse AuthError.decodeError = (401, ("Token decode error").toList)) := by
  intro dec s hdr
  refine ⟨⟨rfl, rfl⟩, ⟨rfl, rfl⟩, ?_, ?_⟩
  · intro h hpre
    refine ⟨?_, rfl⟩
    rw [fromRequestParts_some_some, if_pos hpre]
  · intro h hpre hdec
    refine ⟨?_, rfl⟩
    rw [fromRequestParts_some_some, if_neg (by rw [hpre]; simp), hdec]

/-- Witness for C6: a concrete settings record, a header not starting with
`Bearer `, and a decoder that rejects every token. -/
theorem c6_auth_error_responses_witness :
    fromRequestParts (fun _ _ => none)
        ⟨false, some ⟨[], ("secret").toList, [], 1, 1, none⟩, some (("Token abc").toList)⟩
      = Except.error AuthError.invalidToken ∧
    fromRequestParts (fun _ _ => none)
        ⟨false, some ⟨[], ("secret").toList, [], 1, 1, none⟩, some (("Bearer abc").toList)⟩
      = Except.error AuthError.decodeError :=
  ⟨((c6_auth_error_responses (fun _ _ => none) ⟨[], ("secret").toList, [], 1, 1, none⟩
      none).2.2.1 _ (by decide)).1,
    ((c6_auth_error_responses (fun _ _ => none) ⟨[], ("secret").toList, [], 1, 1, none⟩
      none).2.2.2 _ (by decide) rfl).1⟩

/-- C7: a present whitelist-bypass marker makes the verifier return empty
claims (empty subject, zero expiry, empty tenant) for every decoder,
settings state and header — the header is never consulted; without the
marker, a successful verification forces a present `Authorization` header
that starts with `Bearer ` and whose token the decoder accepts, so the
marker is the only way to skip authentication. -/
theorem c7_whitelist_bypass_only_skip :
    (∀ (dec : Str → Str → Option Claims) (p : AuthParts), p.whitelistBypass = true →
      fromRequestParts dec p = Except.ok ⟨[], 0, []⟩) ∧
    (∀ (dec : Str → Str → Option Claims) (p : AuthParts) (c : Claims),
      p.whitelistBypass = false →
      fromRequestParts dec p = Except.ok c →
      ∃ s h, p.settings = some s ∧ p.authHeader = some h ∧
        (("Bearer ").toList.isPrefixOf h) = true ∧
        dec s.jwt_decoding_key (tokenOf h) = some c) := by
  constructor
  · intro dec p hby
    simp [fromRequestParts, hby]
  · intro dec p c hby hok
    obtain ⟨b, st, hd⟩ := p
    have hb : b = false := hby
    subst hb
    cases st with
    | none => exact absurd hok (by simp [fromRequestParts])
    | some s =>
      cases hd with
      | none => exact absurd hok (by simp [fromRequestParts])
      | some h =>
        rw [fromRequestParts_some_some] at hok
        by_cases hpre : (("Bearer ").toList.isPrefixOf h) = false
        · rw [if_pos hpre] at hok
          cases hok
        · rw [if_neg hpre] at hok
          cases hdec : dec s.jwt_decoding_key (tokenOf h) with
          | none => rw [hdec] at hok; cases hok
          | some c2 =>
            rw [hdec] at hok
            refine ⟨s, h, rfl, rfl, ?_, ?_⟩
            · cases hb2 : (("Bearer ").toList.isPrefixOf h)
              · exact absurd hb2 hpre
              · rfl
            · rw [hdec]
              cases hok
              rfl

/-- Witness for C7: the bypass marker yields empty claims, and a concrete
successful verification exhibits its bearer header and accepted token. -/
theorem c7_whitelist_bypass_only_skip_witness :
    fromRequestParts (fun _ _ => none) ⟨true, none, none⟩ = Except.ok ⟨[], 0, []⟩ ∧
    (∃ s h, (some (⟨[], ("secret").toList, [], 1, 1, none⟩ : Settings)) = some s ∧
      (some (("Bearer x").toList) : Option Str) = some h ∧
      (("Bearer ").toList.isPrefixOf h) = true ∧
      (fun (_ _ : Str) => some (⟨("u1").toList, 7, ("t1").toList⟩ : Claims))
          s.jwt_decoding_key (tokenOf h)
        = some ⟨("u1").toList, 7, ("t1").toList⟩) :=
  ⟨c7_whitelist_bypass_only_skip.1 _ _ rfl,
    c7_whitelist_bypass_only_skip.2 (fun _ _ => some ⟨("u1").toList, 7, ("t1").toList⟩)
      ⟨false, some ⟨[], ("secret").toList, [], 1, 1, none⟩, some (("Bearer x").toList)⟩
      ⟨("u1").toList, 7, ("t1").toList⟩ rfl rfl⟩

theorem le_foldrMax {l : List Int} {x : Int} (h : x ∈ l) : x ≤ l.foldr max 0 := by
  induction l with
  | nil => cases h
  | cons a l ih =>
    rcases List.mem_cons.mp h with rfl | h2
    · simp only [List.foldr_cons]
      exact le_max_left _ _
    · simp only [List.foldr_cons]
      exact le_trans (ih h2) (le_max_right _ _)

theorem foldrMax_nonneg (l : List Int) : 0 ≤ l.foldr max 0 := by
  induction l with
  | nil => simp
  | cons a l ih =>
    simp only [List.foldr_cons]
    exact le_trans ih (le_max_right _ _)

theorem ruleScore_nonneg (r : RouteRule) : 0 ≤ ruleScore r := foldrMax_nonneg _

theorem patScore_pos {p : Str} (hp : p ≠ []) : 1 ≤ patScore p := by
  have h1 : 1 ≤ p.length := List.length_pos.mpr hp
  unfold patScore
  split <;> omega

theorem ruleScore_pos {r : RouteRule} (h : ∃ p ∈ r.prefixes, p ≠ ([] : Str)) :
    1 ≤ ruleScore r := by
  obtain ⟨p, hp, hne⟩ := h
  have hmem : patScore p ≤ ruleScore r := le_foldrMax (List.mem_map_of_mem _ hp)
  have := patScore_pos hne
  omega

theorem findBestGo_all_le (m : RouteRule → Str → Bool) (path : Str) :
    ∀ (rules : List RouteRule) (best : Option RouteRule) (s : Int),
      (∀ r ∈ rules, m r path = true → ruleScore r ≤ s) →
      findBestGo m path rules best s = best := by
  intro rules
  induction rules with
  | nil => intro best s _; rfl
  | cons r rest ih =>
    intro best s hb
    by_cases hm : m r path = true
    · have hle : ruleScore r ≤ s := hb r (List.mem_cons_self r rest) hm
      simp only [findBestGo]
      rw [if_pos hm, if_neg (not_lt.mpr hle)]
      exact ih best s (fun r2 h2 hm2 => hb r2 (List.mem_cons_of_mem _ h2) hm2)
    · simp only [findBestGo]
      rw [if_neg hm]
      exact ih best s (fun r2 h2 hm2 => hb r2 (List.mem_cons_of_mem _ h2) hm2)

theorem findBestGo_spec (m : RouteRule → Str → Bool) (path : Str) :
    ∀ (rules : List RouteRule) (best : Option RouteRule) (s : Int),
      0 ≤ s →
      s < ((rules.filter (fun r => m r path)).map ruleScore).foldr max 0 →
      findBestGo m path rules best s =
        (rules.filter (fun r => m r path)).find?
          (fun r => ruleScore r = ((rules.filter (fun r => m r path)).map ruleScore).foldr max 0) := by
  intro rules
  induction rules with
  | nil =>
    intro best s hs hlt
    simp only [List.filter_nil, List.map_nil, List.foldr_nil] at hlt
    omega
  | cons r rest ih =>
    intro best s hs hlt
    by_cases hm : m r path = true
    case neg =>
      have hfil : (r :: rest).filter (fun r => m r path) = rest.filter (fun r => m r path) := by
        simp [List.filter_cons, hm]
      rw [hfil] at hlt ⊢
      simp only [findBestGo]
      rw [if_neg hm]
      exact ih best s hs hlt
    case pos =>
      have hfil : (r :: rest).filter (fun r => m r path)
          = r :: rest.filter (fun r => m r path) := by
        simp [List.filter_cons, hm]
      rw [hfil] at hlt ⊢
      have hM : (((r :: rest.filter (fun r => m r path))).map ruleScore).foldr max 0
          = max (ruleScore r) (((rest.filter (fun r => m r path)).map ruleScore).foldr max 0) := by
        simp [List.map_cons, List.foldr_cons]
      rw [hM] at hlt ⊢
      simp only [findBestGo]
      rw [if_pos hm]
      by_cases hgt : ruleScore r > s
      · rw [if_pos hgt]
        by_cases hMr : ((rest.filter (fun r => m r path)).map ruleScore).foldr max 0 ≤ ruleScore r
        · have hmax : max (ruleScore r) (((rest.filter (fun r => m r path)).map ruleScore).foldr max 0)
              = ruleScore r := max_eq_left hMr
          rw [hmax]
          have hA : findBestGo m path rest (some r) (ruleScore r) = some r := by
            apply findBestGo_all_le
            intro r2 h2 hm2
            have hle2 : ruleScore r2 ≤ ((rest.filter (fun r => m r path)).map ruleScore).foldr max 0 :=
              le_foldrMax (List.mem_map_of_mem _ (List.mem_filter.mpr ⟨h2, hm2⟩))
            omega
          rw [hA, List.find?_cons_of_pos _ (by simp)]
        · push_neg at hMr
          have hmax : max (ruleScore r) (((rest.filter (fun r => m r path)).map ruleScore).foldr max 0)
              = ((rest.filter (fun r => m r path)).map ruleScore).foldr max 0 :=
            max_eq_right (le_of_lt hMr)
          rw [hmax]
          rw [List.find?_cons_of_neg _ (by simp; omega)]
          exact ih (some r) (ruleScore r) (ruleScore_nonneg r) hMr
      · rw [if_neg hgt]
        push_neg at hgt
        have hMr : max (ruleScore r) (((rest.filter (fun r => m r path)).map ruleScore).foldr max 0)
            = ((rest.filter (fun r => m r path)).map ruleScore).foldr max 0 := by
          rcases max_cases (ruleScore r) (((rest.filter (fun r => m r path)).map ruleScore).foldr max 0) with
            ⟨h1, h2⟩ | ⟨h1, h2⟩
          · omega
          · exact h1
        rw [hMr] at hlt ⊢
        rw [List.find?_cons_of_neg _ (by simp; omega)]
        exact ih best s hs hlt

/-- C5 counterexample: `find_best_match` starts its best score at `0` and
replaces it only on a strictly greater score, so a matching rule whose only
pattern is the empty string (score `0`) is never returned: the code gives
`None` where the claim requires the (unique) matching rule. -/
theorem c5_zero_score_rule_never_returned :
    matchesRule rsemStub ⟨[([] : Str)], [("u").toList], ("robin").toList⟩ (("/x").toList) = true ∧
    findBestMatch (matchesRule rsemStub)
        [⟨[([] : Str)], [("u").toList], ("robin").toList⟩] (("/x").toList) = none ∧
    specBestMatch (matchesRule rsemStub)
        [⟨[([] : Str)], [("u").toList], ("robin").toList⟩] (("/x").toList)
      = some ⟨[([] : Str)], [("u").toList], ("robin").toList⟩ := by
  refine ⟨?_, ?_, ?_⟩ <;> decide

/-- C5 amended: over rule lists in which every rule has at least one
non-empty pattern (as `validate` guarantees for loaded configurations),
`find_best_match` returns exactly the first matching rule, in config order,
whose score (`len + 1000` for a pattern containing `{`, `*` or `?`, else
`len`, maximised over the rule's patterns) attains the maximum score of the
matching rules. -/
theorem c5_find_best_match_first_max_score :
    ∀ (m : RouteRule → Str → Bool) (rules : List RouteRule) (path : Str),
      (∀ r ∈ rules, ∃ p ∈ r.prefixes, p ≠ ([] : Str)) →
      findBestMatch m rules path = specBestMatch m rules path := by
  intro m rules path hpos
  by_cases hex : ∃ r, r ∈ rules.filter (fun r => m r path)
  · obtain ⟨r0, hr0⟩ := hex
    have hr02 := List.mem_filter.mp hr0
    have h1 : 1 ≤ ruleScore r0 := ruleScore_pos (hpos r0 hr02.1)
    have hle : ruleScore r0 ≤ ((rules.filter (fun r => m r path)).map ruleScore).foldr max 0 :=
      le_foldrMax (List.mem_map_of_mem _ hr0)
    have := findBestGo_spec m path rules none 0 le_rfl (by omega)
    simpa [findBestMatch, specBestMatch] using this
  · push_neg at hex
    have hA : findBestGo m path rules none 0 = none :=
      findBestGo_all_le m path rules none 0
        (fun r hr hm => absurd (List.mem_filter.mpr ⟨hr, hm⟩) (hex r))
    have hfil : rules.filter (fun r => m r path) = [] :=
      List.eq_nil_iff_forall_not_mem.mpr hex
    simp [findBestMatch, specBestMatch, hA, hfil]

/-- Witness for the amended C5: two rules with non-empty literal patterns,
where the longer pattern wins. -/
theorem c5_find_best_match_first_max_score_witness :
    findBestMatch (matchesRule rsemStub)
        [⟨[("/u").toList], [("a").toList], ("robin").toList⟩,
          ⟨[("/u/v").toList], [("b").toList], ("robin").toList⟩] (("/u/v/w").toList)
      = specBestMatch (matchesRule rsemStub)
        [⟨[("/u").toList], [("a").toList], ("robin").toList⟩,
          ⟨[("/u/v").toList], [("b").toList], ("robin").toList⟩] (("/u/v/w").toList) :=
  c5_find_best_match_first_max_score (matchesRule rsemStub) _ _ (by decide)

theorem splitAtFirst_eq_none {t : Char} : ∀ {cs : List Char}, t ∉ cs → splitAtFirst t cs = none := by
  intro cs
  induction cs with
  | nil => intro _; rfl
  | cons c cs ih =>
    intro hmem
    have hc : ¬(c = t) := fun h => hmem (h ▸ List.mem_cons_self c cs)
    have hcs : t ∉ cs := fun h => hmem (List.mem_cons_of_mem c h)
    simp only [splitAtFirst, if_neg hc, ih hcs]

theorem segT_no_close_brace : ∀ (seg : List Char), ('\x7d') ∉ seg →
    (segT seg).2 = [] ∧ ∀ tok ∈ (segT seg).1, ∀ n re, tok ≠ RTok.capRe n re := by
  intro seg
  induction seg with
  | nil => intro _; exact ⟨by simp [segT], by simp [segT]⟩
  | cons c cs ih =>
    intro hmem
    have hcs : ('\x7d') ∉ cs := fun h => hmem (List.mem_cons_of_mem c h)
    obtain ⟨ih1, ih2⟩ := ih hcs
    by_cases h1 : c = '*'
    · simp only [segT, if_pos h1]
      refine ⟨ih1, ?_⟩
      intro tok htok n re
      rcases List.mem_cons.mp htok with rfl | htok2
      · simp
      · exact ih2 tok htok2 n re
    · by_cases h2 : c = '?'
      · simp only [segT, if_neg h1, if_pos h2]
        refine ⟨ih1, ?_⟩
        intro tok htok n re
        rcases List.mem_cons.mp htok with rfl | htok2
        · simp
        · exact ih2 tok htok2 n re
      · by_cases h3 : c = '\x7b'
        · simp only [segT, if_neg h1, if_neg h2, if_pos h3]
          split
          · refine ⟨by simpa using ih1, ?_⟩
            intro tok htok n re
            rcases List.mem_cons.mp (by simpa using htok) with rfl | htok2
            · simp
            · exact ih2 tok htok2 n re
          all_goals
            (rename_i ins aft hs2
             rw [splitAtFirst_eq_none hcs] at hs2
             cases hs2)
        · simp only [segT, if_neg h1, if_neg h2, if_neg h3]
          refine ⟨ih1, ?_⟩
          intro tok htok n re
          rcases List.mem_cons.mp htok with rfl | htok2
          · simp
          · exact ih2 tok htok2 n re

theorem splitSl_ne_nil : ∀ (l : List Char), splitSl l ≠ [] := by
  intro l
  induction l with
  | nil => simp [splitSl]
  | cons c cs ih =>
    by_cases hc : c = '/'
    · simp [splitSl, hc]
    · simp only [splitSl, if_neg hc]
      cases h : splitSl cs <;> simp

theorem mem_splitSl : ∀ (l : List Char) (seg : List Char), seg ∈ splitSl l → ∀ x ∈ seg, x ∈ l := by
  intro l
  induction l with
  | nil =>
    intro seg hseg x hx
    simp only [splitSl, List.mem_singleton] at hseg
    subst hseg
    cases hx
  | cons c cs ih =>
    intro seg hseg x hx
    by_cases hc : c = '/'
    · simp only [splitSl, if_pos hc] at hseg
      rcases List.mem_cons.mp hseg with rfl | h2
      · cases hx
      · exact List.mem_cons_of_mem _ (ih seg h2 x hx)
    · simp only [splitSl, if_neg hc] at hseg
      cases hsp : splitSl cs with
      | nil => exact absurd hsp (splitSl_ne_nil cs)
      | cons s restl =>
        rw [hsp] at hseg
        rcases List.mem_cons.mp hseg with rfl | h2
        · rcases List.mem_cons.mp hx with rfl | h3
          · exact List.mem_cons_self _ _
          · exact List.mem_cons_of_mem _ (ih s (by rw [hsp]; exact List.mem_cons_self _ _) x h3)
        · exact List.mem_cons_of_mem _ (ih seg (by rw [hsp]; exact List.mem_cons_of_mem _ h2) x hx)

theorem segsT_cons_nil (seg : List Char) (h1 : seg ≠ []) (h2 : seg ≠ ("**").toList) :
    segsT [seg] = segT seg := by
  conv_lhs => rw [segsT]
  rw [if_neg h1, if_neg h2]
  simp [segsT]

theorem segsT_cons_cons (seg s2 : List Char) (r2 : List (List Char))
    (h1 : seg ≠ []) (h2 : seg ≠ ("**").toList) :
    segsT (seg :: s2 :: r2)
      = ((segT seg).1 ++ [RTok.lit '/'] ++ (segsT (s2 :: r2)).1,
         (segT seg).2 ++ (segsT (s2 :: r2)).2) := by
  conv_lhs => rw [segsT]
  rw [if_neg h1, if_neg h2]

theorem segsT_no_close_brace : ∀ (segs : List (List Char)),
    (∀ seg ∈ segs, ('\x7d') ∉ seg) →
    (segsT segs).2 = [] ∧ ∀ tok ∈ (segsT segs).1, ∀ n re, tok ≠ RTok.capRe n re := by
  intro segs
  induction segs with
  | nil => intro _; exact ⟨rfl, by simp [segsT]⟩
  | cons seg rest ih =>
    intro hh
    have hrest := ih (fun s hs => hh s (List.mem_cons_of_mem _ hs))
    have hseg : ('\x7d') ∉ seg := hh seg (List.mem_cons_self _ _)
    by_cases h1 : seg = []
    · simpa only [segsT, if_pos h1] using hrest
    · by_cases h2 : seg = ("**").toList
      · simp only [segsT, if_neg h1, if_pos h2]
        refine ⟨hrest.1, ?_⟩
        intro tok htok n re
        rcases List.mem_cons.mp htok with rfl | h3
        · simp
        · exact hrest.2 tok h3 n re
      · have hsegT := segT_no_close_brace seg hseg
        cases rest with
        | nil =>
          rw [segsT_cons_nil seg h1 h2]
          exact hsegT
        | cons s2 r2 =>
          rw [segsT_cons_cons seg s2 r2 h1 h2]
          constructor
          · rw [hsegT.1, hrest.1]
            rfl
          · intro tok htok n re
            simp only [List.append_assoc, List.mem_append, List.mem_singleton] at htok
            rcases htok with h3 | (rfl | h3)
            · exact hsegT.2 tok h3 n re
            · simp
            · exact hrest.2 tok h3 n re

theorem buildToks_no_close_brace (p : Str) (hp : ('\x7d') ∉ p) :
    (buildToks p).2 = [] ∧ ∀ tok ∈ (buildToks p).1, ∀ n re, tok ≠ RTok.capRe n re := by
  have hsegs : ∀ seg ∈ splitSl p, ('\x7d') ∉ seg :=
    fun seg hs hx => hp (mem_splitSl p seg hs _ hx)
  have h := segsT_no_close_brace (splitSl p) hsegs
  cases p with
  | nil => simpa only [buildToks] using h
  | cons c cs =>
    by_cases hc : c = '/'
    · simp only [buildToks, if_pos hc]
      refine ⟨h.1, ?_⟩
      intro tok htok n re
      rcases List.mem_cons.mp htok with rfl | h3
      · simp
      · exact h.2 tok h3 n re
    · simpa only [buildToks, if_neg hc] using h

theorem fromPattern_ok_of_no_close (p : Str) (hp : ('\x7d') ∉ p) :
    fromPattern p = Except.ok (buildToks p) := by
  obtain ⟨h2, htoks⟩ := buildToks_no_close_brace p hp
  have hok : regexNewOk (buildToks p).1 (buildToks p).2 = true := by
    unfold regexNewOk
    rw [h2]
    simp only [List.all_nil, nodupB, Bool.true_and, Bool.and_true]
    rw [List.all_eq_true]
    intro t ht
    cases t with
    | capRe n re => exact absurd rfl (htoks _ ht n re)
    | lit c => rfl
    | anyOne => rfl
    | anyMany => rfl
    | rest => rfl
    | cap n => rfl
  simp only [fromPattern, hok, if_true]

/-- C9 counterexample: a pattern with an unbalanced `{` does not fail to
compile — `compile_pattern` explicitly escapes a brace without a matching
`}` and emits it as a literal — so it never reaches the literal-prefix
fallback that the claim attributes to it. -/
theorem c9_unbalanced_brace_pattern_compiles :
    fromPattern (("/a\x7bb").toList)
      = Except.ok ([RTok.lit '/', RTok.lit 'a', RTok.lit '\x7b', RTok.lit 'b'], []) ∧
    hasMeta (("/a\x7bb").toList) = true := by
  constructor
  · simp [fromPattern, buildToks, segsT, segT, splitSl, splitAtFirst, regexNewOk, nodupB]
  · decide

/-- C9 amended: a pattern containing no `}` at all — in particular one whose
`{` is unbalanced — always compiles, the brace escaped as a literal;
compilation can only fail on the `{name:re}` capture machinery, and whenever
`from_pattern` does fail on a metacharacter pattern, `matches_prefix` falls
back to plain literal-prefix matching (`path.starts_with(pattern)`). -/
theorem c9_compile_failure_literal_fallback :
    (∀ p : Str, ('\x7d') ∉ p → fromPattern p = Except.ok (buildToks p)) ∧
    (∀ (rsem : List RTok → Str → Bool) (p path : Str),
      hasMeta p = true → fromPattern p = Except.error () →
      matchesPat rsem p path = p.isPrefixOf path) := by
  constructor
  · exact fromPattern_ok_of_no_close
  · intro rsem p path hmeta herr
    unfold matchesPat
    rw [if_pos hmeta, herr]

/-- Witness for the amended C9: the brace-free claim at `/a{b` and the
fallback at the pattern `/u/{id:(}`, whose inner fragment `(` is rejected
by the regex compile. -/
theorem c9_compile_failure_literal_fallback_witness :
    fromPattern (("/a\x7bb").toList) = Except.ok (buildToks (("/a\x7bb").toList)) ∧
    matchesPat rsemStub (("/u/\x7bid:(\x7d").toList) (("/u/x").toList)
      = (("/u/\x7bid:(\x7d").toList).isPrefixOf (("/u/x").toList) :=
  ⟨c9_compile_failure_literal_fallback.1 _ (by decide),
    c9_compile_failure_literal_fallback.2 rsemStub _ _ (by decide)
      (by simp [fromPattern, buildToks, segsT, segT, splitSl, splitAtFirst, regexNewOk,
        nodupB, fragmentOk, balGo])⟩
